import Mathlib

/-!
Verification of the signal-scout core pipeline (deduplication, archetype
classification, scoring, shortlist selection) against its specification.

The definitions below are shallow embeddings of the Python functions in
`agent/signal_scout/` (`dedupe.py`, `scoring.py`, `archetypes.py`,
`llm_ensemble.py`, `cli.py`).  External library calls (rapidfuzz's
`token_set_ratio`, the `simhash` fingerprint, `langdetect`, the regex engine,
the LLM judge) are modelled as explicit function parameters; everything the
repository itself computes is translated directly.  Python floats are modelled
as rationals.
-/

namespace SignalScout

/-- Candidate Item record, as produced by the normalizer: the dict
`{title, summary, url, source, tier, date}`. -/
structure Item where
  title : String
  summary : String
  url : String
  source : String
  tier : String
  date : String
deriving DecidableEq

/-- The fields of a Scored Row used by the Shortlist Selector
(`cli.py:shortlist` reads exactly `source_url`, `archetype`, `mission_links`,
`total_score`). -/
structure Row where
  source_url : String
  archetype : String
  mission_links : String
  total_score : ℚ
deriving DecidableEq

/-- The configuration keys read by `shortlist`. -/
structure Config where
  daily_top_n : Nat
  ensure_archetype_diversity : Nat
  ensure_mission_coverage : Bool

/-! ## Deduplicator (`dedupe.py`) -/

/-- `simhash_text` from `dedupe.py`: the external `Simhash(...).value` call is
the parameter `shv`; the repository's own contribution is the concatenation
`(title or "") + " " + (summary or "")`. -/
def simhash_text (shv : String → Nat) (title summary : String) : Nat :=
  shv (title ++ " " ++ summary)

/-- `is_english` from `dedupe.py`: `langdetect.detect` is the parameter `lang`,
which may fail (raise `LangDetectException`); the failure is caught and treated
as English. -/
def is_english (lang : String → Except Unit String) (text : String) : Bool :=
  match lang text with
  | .ok l => l == "en"
  | .error _ => true

/-- Python `abs(a - b)` on the two fingerprint integers. -/
def absDiff (a b : Nat) : Nat := ((a : Int) - (b : Int)).natAbs

/-- The loop body of `dedupe` (`dedupe.py` lines 14-28), with the accumulated
`seen_urls`, `seen_titles`, `seen_hashes` threaded explicitly.  `tsr` is
rapidfuzz's `fuzz.token_set_ratio`, `shv` the simhash value, `eng` the
language filter. -/
def dedupeGo (tsr : String → String → ℚ) (shv : String → Nat) (eng : String → Bool) :
    List String → List String → List Nat → List Item → List Item
  | _, _, _, [] => []
  | urls, titles, hashes, it :: rest =>
    if it.url ∈ urls then
      dedupeGo tsr shv eng urls titles hashes rest
    else if titles.any (fun t => 92 < tsr it.title t)
        || hashes.any (fun h => absDiff (simhash_text shv it.title it.summary) h < 2 ^ 16) then
      dedupeGo tsr shv eng urls titles hashes rest
    else if eng (it.title ++ " " ++ it.summary) = false then
      dedupeGo tsr shv eng urls titles hashes rest
    else
      it :: dedupeGo tsr shv eng (it.url :: urls) (titles ++ [it.title])
            (hashes ++ [simhash_text shv it.title it.summary]) rest

/-- `dedupe` from `dedupe.py`: run the loop from empty seen-state. -/
def dedupe (tsr : String → String → ℚ) (shv : String → Nat) (eng : String → Bool)
    (items : List Item) : List Item :=
  dedupeGo tsr shv eng [] [] [] items

/-- Exception-aware variant of the dedupe loop: the simhash computation `shf`
may fail.  `dedupe` wraps no handler around `simhash_text`, so a fingerprint
failure propagates out of the whole batch; language detection goes through
`is_english`, whose handler absorbs detector failures. -/
def dedupeEGo (tsr : String → String → ℚ) (shf : String → Except Unit Nat)
    (lang : String → Except Unit String) :
    List String → List String → List Nat → List Item → Except Unit (List Item)
  | _, _, _, [] => .ok []
  | urls, titles, hashes, it :: rest =>
    if it.url ∈ urls then
      dedupeEGo tsr shf lang urls titles hashes rest
    else
      match shf (it.title ++ " " ++ it.summary) with
      | .error e => .error e
      | .ok sh =>
        if titles.any (fun t => 92 < tsr it.title t)
            || hashes.any (fun h => absDiff sh h < 2 ^ 16) then
          dedupeEGo tsr shf lang urls titles hashes rest
        else if is_english lang (it.title ++ " " ++ it.summary) = false then
          dedupeEGo tsr shf lang urls titles hashes rest
        else
          match dedupeEGo tsr shf lang (it.url :: urls) (titles ++ [it.title])
              (hashes ++ [sh]) rest with
          | .error e => .error e
          | .ok l => .ok (it :: l)

/-- Exception-aware `dedupe`. -/
def dedupeE (tsr : String → String → ℚ) (shf : String → Except Unit Nat)
    (lang : String → Except Unit String) (items : List Item) : Except Unit (List Item) :=
  dedupeEGo tsr shf lang [] [] [] items

/-! Specification-side definition for claim C1: the Hamming distance between
two fingerprints, i.e. the number of bit positions in which they differ.
Simhash fingerprints are 64-bit, so 64 bit positions are compared. -/

/-- Number of differing bit positions among the lowest `fuel` bits. -/
def hammingFuel : Nat → Nat → Nat → Nat
  | 0, _, _ => 0
  | fuel + 1, a, b => (if a % 2 = b % 2 then 0 else 1) + hammingFuel fuel (a / 2) (b / 2)

/-- Modelled from the spec: the Hamming distance between two fixed-width
(64-bit) fingerprints — the number of bit positions in which they differ. -/
def hammingDist (a b : Nat) : Nat := hammingFuel 64 a b

/-! ## Scorer (`scoring.py` and the scoring part of `cli.py:build_rows`) -/

/-- Case-insensitive text as Python's `text.lower()`, viewed as characters. -/
def lowerChars (s : String) : List Char := s.data.map Char.toLower

/-- Whether `needle` is a prefix of `hay` (character lists). -/
def beginsWith : List Char → List Char → Bool
  | [], _ => true
  | _ :: _, [] => false
  | c :: cs, d :: ds => c == d && beginsWith cs ds

/-- Python's substring test `needle in hay` over character lists. -/
def hasSubList (needle : List Char) : List Char → Bool
  | [] => needle.isEmpty
  | c :: cs => beginsWith needle (c :: cs) || hasSubList needle cs

/-- The "has empirical data" markers of `scoring.py:has_data_terms`. -/
def data_markers : List String :=
  ["randomized", "randomised", "cohort", "dataset", "preprint", "doi:", "method",
   "confidence interval"]

/-- `has_data_terms` from `scoring.py`: any marker occurs in the lowercased
text. -/
def has_data_terms (text : String) : Bool :=
  data_markers.any (fun k => hasSubList k.data (lowerChars text))

/-- `credibility` from `scoring.py`: `source_weights.get(tier, 0.5)` scaled by
5, plus 0.5 when the summary has data markers, capped at 5. -/
def credibility (tier : String) (source_weights : List (String × ℚ)) (has_data : Bool) : ℚ :=
  min 5 (5 * ((source_weights.lookup tier).getD (1 / 2)) + (if has_data then 1 / 2 else 0))

/-- `novelty` from `scoring.py`: 5 when there are no prior titles, otherwise
`max(0, 5 - best/100*5)` where `best` is the best `token_set_ratio` of the
title against the prior titles (Python's `max(..., default=0)`; ratios are
non-negative, so a fold with base 0 computes it). -/
def novelty (tsr : String → String → ℚ) (title : String) (prior_titles : List String) : ℚ :=
  if prior_titles.isEmpty then 5
  else max 0 (5 - (prior_titles.map (fun t => tsr title t)).foldr max 0 / 100 * 5)

/-- `cli.py:build_rows` line 33: the prior-titles list handed to `novelty` is
the titles of all items in the batch. -/
def prior_titles (items : List Item) : List String := items.map (·.title)

/-- The novelty sub-scores computed inside `build_rows` (before any archetype
nudge): each item's title is compared against `prior_titles items`. -/
def build_rows_novelty (tsr : String → String → ℚ) (items : List Item) : List ℚ :=
  items.map (fun it => novelty tsr it.title (prior_titles items))

/-- `cli.py:build_rows` line 54: days elapsed, floored at 1, with 999 standing
in for an unparseable date (`item_dt is None`).  The argument is the result of
`(run_dt - item_dt).days` when the date parses. -/
def recency_days (parsedDays : Option ℤ) : ℤ :=
  max 1 (match parsedDays with | some d => d | none => 999)

/-- `cli.py:build_rows` line 55: `max(0.0, 5.0 - min(5.0, days/6.0))`. -/
def recency_score (parsedDays : Option ℤ) : ℚ :=
  max 0 (5 - min 5 ((recency_days parsedDays : ℚ) / 6))

/-! ## Archetype Classifier (`archetypes.py`) -/

/-- The inner `any_pat` of `classify_archetype_rules`: some pattern of the
group matches the text.  `rsearch` is the external `re.search` (with
`re.I`). -/
def any_pat (rsearch : String → List Char → Bool) (pats : List String) (txt : List Char) : Bool :=
  pats.any (fun p => rsearch p txt)

/-- Literal source tokens boosting `insights_from_field` (`archetypes.py`). -/
def field_source_tokens : List String := ["hansard", "gtr", "council", "nhs", "trust"]

/-- Literal text tokens boosting `outlier` (`archetypes.py`). -/
def outlier_tokens : List String :=
  ["artist", "collective", "hack", "lawsuit", "strike", "grassroots"]

/-- Literal text tokens boosting `big_idea` (`archetypes.py`). -/
def big_idea_tokens : List String :=
  ["framework", "roadmap", "manifesto", "agenda", "grand challenge"]

/-- Literal text tokens boosting `shape_of_things` (`archetypes.py`). -/
def shape_tokens : List String :=
  ["deployment", "uptake", "orders", "capacity", "interoperability"]

/-- The archetype pattern set: one ordered pattern list per label. -/
structure ArchetypePatterns where
  canary : List String
  counter_intuitive : List String
  insights_from_field : List String
  outlier : List String
  big_idea : List String
  shape_of_things : List String

/-- `classify_archetype_rules` from `archetypes.py`: six pattern groups tested
in fixed priority order against the lowercase `f"{title}. {summary}"`; first
match wins; default `("shape_of_things", 2.5)`. -/
def classify_archetype_rules (rsearch : String → List Char → Bool)
    (title summary source : String) (patterns : ArchetypePatterns) : String × ℚ :=
  if any_pat rsearch patterns.canary (lowerChars (title ++ ". " ++ summary)) then
    ("canary", 9 / 2)
  else if any_pat rsearch patterns.counter_intuitive (lowerChars (title ++ ". " ++ summary)) then
    ("counter_intuitive", 4)
  else if any_pat rsearch patterns.insights_from_field (lowerChars (title ++ ". " ++ summary))
      || field_source_tokens.any (fun x => hasSubList x.data (lowerChars source)) then
    ("insights_from_field", 4)
  else if any_pat rsearch patterns.outlier (lowerChars (title ++ ". " ++ summary))
      || outlier_tokens.any (fun x => hasSubList x.data (lowerChars (title ++ ". " ++ summary))) then
    ("outlier", 4)
  else if any_pat rsearch patterns.big_idea (lowerChars (title ++ ". " ++ summary))
      || big_idea_tokens.any (fun x => hasSubList x.data (lowerChars (title ++ ". " ++ summary))) then
    ("big_idea", 7 / 2)
  else if any_pat rsearch patterns.shape_of_things (lowerChars (title ++ ". " ++ summary))
      || shape_tokens.any (fun x => hasSubList x.data (lowerChars (title ++ ". " ++ summary))) then
    ("shape_of_things", 7 / 2)
  else
    ("shape_of_things", 5 / 2)

/-! ## LLM ensemble (`llm_ensemble.py`) -/

/-- The six valid labels (`llm_ensemble.py:LABELS`). -/
def LABELS : List String :=
  ["shape_of_things", "counter_intuitive", "canary", "insights_from_field", "outlier",
   "big_idea"]

/-- Python's `round` (banker's rounding, ties to even) on a rational. -/
def bround (q : ℚ) : ℤ :=
  if q - ⌊q⌋ < 1 / 2 then ⌊q⌋
  else if 1 / 2 < q - ⌊q⌋ then ⌊q⌋ + 1
  else if ⌊q⌋ % 2 = 0 then ⌊q⌋ else ⌊q⌋ + 1

/-- Python's `round(q, 2)`. -/
def round2 (q : ℚ) : ℚ := (bround (q * 100) : ℚ) / 100

/-- `_parse` from `llm_ensemble.py`, applied to the outcome of the judge call:
a failed call (or unparseable response) yields `("abstain", 0)`; a label
outside the valid set is replaced by `("abstain", 0)`; the confidence is
clamped to `[0, 1]`. -/
def parse_judge (response : Except Unit (String × ℚ)) : String × ℚ :=
  match response with
  | .error _ => ("abstain", 0)
  | .ok (label, conf) =>
    if label ∈ LABELS then (label, max 0 (min 1 conf)) else ("abstain", 0)

/-- `classify_archetype_llm` from `llm_ensemble.py`: the external judge call
`judge` parsed through `_parse`. -/
def classify_archetype_llm (judge : String → String → String → Except Unit (String × ℚ))
    (title summary source : String) : String × ℚ :=
  parse_judge (judge title summary source)

/-- `ensemble_archetype` from `llm_ensemble.py`: rules win at or above
`tau_rules`; otherwise the judge's verdict is used when its label is valid and
its confidence at or above `tau_llm`; otherwise the rule verdict is kept.
Returned confidences are scaled by 5 and rounded to 2 decimals. -/
def ensemble_archetype (judge : String → String → String → Except Unit (String × ℚ))
    (title summary source rule_label : String) (rule_fit01 tau_rules tau_llm : ℚ) :
    String × ℚ :=
  if tau_rules ≤ rule_fit01 then
    (rule_label, round2 (rule_fit01 * 5))
  else if (classify_archetype_llm judge title summary source).1 ∈ LABELS
      ∧ tau_llm ≤ (classify_archetype_llm judge title summary source).2 then
    ((classify_archetype_llm judge title summary source).1,
      round2 ((classify_archetype_llm judge title summary source).2 * 5))
  else
    (rule_label, round2 (rule_fit01 * 5))

/-! ## Shortlist Selector (`cli.py:shortlist`) -/

/-- Stable insertion (earlier rows win ties), used to model Python's stable
`sorted(rows, key=..., reverse=True)`. -/
def insertDesc (r : Row) : List Row → List Row
  | [] => [r]
  | x :: xs => if x.total_score ≤ r.total_score then r :: x :: xs else x :: insertDesc r xs

/-- Stable sort by `total_score` descending: the unique stable descending
permutation, hence the output of Python's `sorted(..., reverse=True)`. -/
def sortDesc : List Row → List Row
  | [] => []
  | x :: xs => insertDesc x (sortDesc xs)

/-- Python set insertion (`have_arch.add`), on a duplicate-free list. -/
def addSet (a : String) (s : List String) : List String :=
  if a ∈ s then s else a :: s

/-- Phase 1 of `shortlist` (archetype diversity): walk the sorted rows with
accumulators `out`, `used`, `have_arch`; stop at `N` accepted; skip used URLs;
while fewer than `d` archetypes are represented, skip rows whose archetype is
already represented. -/
def phase1 (N d : Nat) :
    List Row → List Row → List String → List String → List Row × List String × List String
  | [], out, used, have_arch => (out, used, have_arch)
  | r :: rs, out, used, have_arch =>
    if N ≤ out.length then (out, used, have_arch)
    else if r.source_url ∈ used then phase1 N d rs out used have_arch
    else if have_arch.length < d ∧ r.archetype ∈ have_arch then phase1 N d rs out used have_arch
    else phase1 N d rs (out ++ [r]) (r.source_url :: used) (addSet r.archetype have_arch)

/-- The fixed mission-priority list of phase 2. -/
def missions_list : List String := ["ASF", "AHL", "AFS"]

/-- Phase 2 of `shortlist` (mission coverage): for each mission in the fixed
list, if unrepresented and room remains, accept the best-scoring unused row of
that mission. -/
def phase2go (N : Nat) (ordered : List Row) :
    List String → List Row → List String → List String → List Row × List String
  | [], out, used, _ => (out, used)
  | m :: ms, out, used, missions_present =>
    if N ≤ out.length then (out, used)
    else if m ∈ missions_present then phase2go N ordered ms out used missions_present
    else
      match ordered.find? (fun x => x.mission_links == m && !(used.contains x.source_url)) with
      | none => phase2go N ordered ms out used missions_present
      | some cand =>
        phase2go N ordered ms (out ++ [cand]) (cand.source_url :: used) (m :: missions_present)

/-- Phase 3 of `shortlist` (fill): accept any remaining unused row until `N`. -/
def phase3 (N : Nat) : List Row → List Row → List String → List Row
  | [], out, _ => out
  | r :: rs, out, used =>
    if N ≤ out.length then out
    else if r.source_url ∈ used then phase3 N rs out used
    else phase3 N rs (out ++ [r]) (r.source_url :: used)

/-- `shortlist` from `cli.py` (identical logic in
`signal_scout_excel_enhanced.py`): sort descending by total score, then run
the three phases. -/
def shortlist (rows : List Row) (cfg : Config) : List Row :=
  let ordered := sortDesc rows
  let s1 := phase1 cfg.daily_top_n cfg.ensure_archetype_diversity ordered [] [] []
  let s2 :=
    if cfg.ensure_mission_coverage then
      phase2go cfg.daily_top_n ordered missions_list s1.1 s1.2.1 (s1.1.map (·.mission_links))
    else (s1.1, s1.2.1)
  phase3 cfg.daily_top_n ordered s2.1 s2.2

/-! ## Helper lemmas about the Deduplicator -/

/-- Unfolding of the dedupe loop on a cons cell. -/
theorem dedupeGo_cons (tsr : String → String → ℚ) (shv : String → Nat) (eng : String → Bool)
    (urls titles : List String) (hashes : List Nat) (it : Item) (rest : List Item) :
    dedupeGo tsr shv eng urls titles hashes (it :: rest) =
      if it.url ∈ urls then
        dedupeGo tsr shv eng urls titles hashes rest
      else if titles.any (fun t => 92 < tsr it.title t)
          || hashes.any (fun h => absDiff (simhash_text shv it.title it.summary) h < 2 ^ 16) then
        dedupeGo tsr shv eng urls titles hashes rest
      else if eng (it.title ++ " " ++ it.summary) = false then
        dedupeGo tsr shv eng urls titles hashes rest
      else
        it :: dedupeGo tsr shv eng (it.url :: urls) (titles ++ [it.title])
              (hashes ++ [simhash_text shv it.title it.summary]) rest := rfl

/-- Re-running the dedupe loop on its own output, from the same seen-state,
changes nothing: each accepted item re-passes exactly the checks it passed. -/
theorem dedupeGo_idem (tsr : String → String → ℚ) (shv : String → Nat) (eng : String → Bool)
    (xs : List Item) :
    ∀ urls titles hashes,
      dedupeGo tsr shv eng urls titles hashes (dedupeGo tsr shv eng urls titles hashes xs)
        = dedupeGo tsr shv eng urls titles hashes xs := by
  induction xs with
  | nil => intro urls titles hashes; rfl
  | cons it rest ih =>
    intro urls titles hashes
    by_cases h1 : it.url ∈ urls
    · rw [dedupeGo_cons, if_pos h1, ih]
    · by_cases h2 : (titles.any (fun t => 92 < tsr it.title t)
          || hashes.any (fun h => absDiff (simhash_text shv it.title it.summary) h < 2 ^ 16))
          = true
      · rw [dedupeGo_cons, if_neg h1, if_pos h2, ih]
      · by_cases h3 : eng (it.title ++ " " ++ it.summary) = false
        · rw [dedupeGo_cons, if_neg h1, if_neg h2, if_pos h3, ih]
        · rw [dedupeGo_cons, if_neg h1, if_neg h2, if_neg h3,
            dedupeGo_cons, if_neg h1, if_neg h2, if_neg h3, ih]

/-- Every URL in the dedupe loop's output is fresh relative to `urls`, and the
output URLs are pairwise distinct. -/
theorem dedupeGo_urls_nodup (tsr : String → String → ℚ) (shv : String → Nat)
    (eng : String → Bool) (xs : List Item) :
    ∀ urls titles hashes,
      ((dedupeGo tsr shv eng urls titles hashes xs).map (·.url)).Nodup
        ∧ ∀ u ∈ (dedupeGo tsr shv eng urls titles hashes xs).map (·.url), u ∉ urls := by
  induction xs with
  | nil => intro urls titles hashes; simp [dedupeGo]
  | cons it rest ih =>
    intro urls titles hashes
    by_cases h1 : it.url ∈ urls
    · rw [dedupeGo_cons, if_pos h1]; exact ih urls titles hashes
    · by_cases h2 : (titles.any (fun t => 92 < tsr it.title t)
          || hashes.any (fun h => absDiff (simhash_text shv it.title it.summary) h < 2 ^ 16))
          = true
      · rw [dedupeGo_cons, if_neg h1, if_pos h2]; exact ih urls titles hashes
      · by_cases h3 : eng (it.title ++ " " ++ it.summary) = false
        · rw [dedupeGo_cons, if_neg h1, if_neg h2, if_pos h3]; exact ih urls titles hashes
        · rw [dedupeGo_cons, if_neg h1, if_neg h2, if_neg h3]
          obtain ⟨hnd, hfresh⟩ :=
            ih (it.url :: urls) (titles ++ [it.title])
              (hashes ++ [simhash_text shv it.title it.summary])
          refine ⟨?_, ?_⟩
          · simp only [List.map_cons, List.nodup_cons]
            refine ⟨fun hmem => ?_, hnd⟩
            exact (hfresh _ hmem) (List.mem_cons_self _ _)
          · intro u hu
            simp only [List.map_cons, List.mem_cons] at hu
            rcases hu with rfl | hu
            · exact h1
            · intro hmem
              exact (hfresh u hu) (List.mem_cons_of_mem _ hmem)

/-- With a total fingerprint function, the exception-aware dedupe loop never
fails and agrees with the pure loop, for every language detector (including
always-failing ones). -/
theorem dedupeEGo_ok (tsr : String → String → ℚ) (g : String → Nat)
    (lang : String → Except Unit String) (xs : List Item) :
    ∀ urls titles hashes,
      dedupeEGo tsr (fun s => .ok (g s)) lang urls titles hashes xs
        = .ok (dedupeGo tsr g (is_english lang) urls titles hashes xs) := by
  induction xs with
  | nil => intro urls titles hashes; rfl
  | cons it rest ih =>
    intro urls titles hashes
    show (if it.url ∈ urls then
        dedupeEGo tsr (fun s => .ok (g s)) lang urls titles hashes rest
      else if titles.any (fun t => 92 < tsr it.title t)
          || hashes.any (fun h => absDiff (g (it.title ++ " " ++ it.summary)) h < 2 ^ 16) then
        dedupeEGo tsr (fun s => .ok (g s)) lang urls titles hashes rest
      else if is_english lang (it.title ++ " " ++ it.summary) = false then
        dedupeEGo tsr (fun s => .ok (g s)) lang urls titles hashes rest
      else
        match dedupeEGo tsr (fun s => .ok (g s)) lang (it.url :: urls) (titles ++ [it.title])
            (hashes ++ [g (it.title ++ " " ++ it.summary)]) rest with
        | .error e => .error e
        | .ok l => .ok (it :: l)) = _
    rw [dedupeGo_cons]
    simp only [simhash_text]
    by_cases h1 : it.url ∈ urls
    · rw [if_pos h1, if_pos h1, ih]
    · rw [if_neg h1, if_neg h1]
      by_cases h2 : (titles.any (fun t => 92 < tsr it.title t)
          || hashes.any (fun h => absDiff (g (it.title ++ " " ++ it.summary)) h < 2 ^ 16)) = true
      · rw [if_pos h2, if_pos h2, ih]
      · rw [if_neg h2, if_neg h2]
        by_cases h3 : is_english lang (it.title ++ " " ++ it.summary) = false
        · rw [if_pos h3, if_pos h3, ih]
        · rw [if_neg h3, if_neg h3, ih]

/-! ## Concrete fixtures used by witnesses and counterexamples -/

/-- A concrete candidate item. -/
def itemA : Item := ⟨"ta", "sa", "ua", "src", "trade", "2024-01-01"⟩

/-- A second concrete candidate item with a distinct URL. -/
def itemB : Item := ⟨"tb", "sb", "ub", "src", "trade", "2024-01-01"⟩

/-- A similarity function reporting no title overlap at all. -/
def tsr_zero : String → String → ℚ := fun _ _ => 0

/-- A fingerprint assignment putting `itemB`'s text at `2 ^ 16` and every other
text at `0`: the two fingerprints differ in exactly one bit position, while
their absolute numeric difference is exactly `2 ^ 16`. -/
def shv_gap : String → Nat := fun s => if s = "tb sb" then 65536 else 0

/-- A language filter accepting everything. -/
def eng_true : String → Bool := fun _ => true

/-- A fingerprinting function that fails exactly on `itemB`'s text. -/
def shf_bad : String → Except Unit Nat := fun s => if s = "tb sb" then .error () else .ok 0

/-! ## Claim C1 -/

/-- C1, counterexample: the claim says a later candidate is dropped by the
fingerprint rule exactly when its fingerprint differs from an accepted one in
fewer than 16 bit positions.  With fingerprints `0` (accepted, `itemA`) and
`2 ^ 16` (`itemB`), the Hamming distance is 1 — fewer than 16 bit positions —
yet `dedupe` keeps both items, because the code compares the absolute numeric
difference `abs(sh - h)` against `2 ^ 16`, not a bit-position count. -/
theorem C1_counterexample :
    hammingDist (simhash_text shv_gap itemB.title itemB.summary)
        (simhash_text shv_gap itemA.title itemA.summary) < 16
      ∧ dedupe tsr_zero shv_gap eng_true [itemA, itemB] = [itemA, itemB] :=
  ⟨by decide, by decide⟩

/-- C1 (amended): for a pair of items processed in one pass — the second with
a fresh URL, a dissimilar title, and English text — the later candidate is
dropped by the fingerprint rule exactly when the absolute numeric difference
between its fingerprint and the accepted item's fingerprint is below
`2 ^ 16`. -/
theorem C1_fingerprint_rule (tsr : String → String → ℚ) (shv : String → Nat)
    (eng : String → Bool) (A B : Item)
    (hAeng : eng (A.title ++ " " ++ A.summary) = true)
    (hBeng : eng (B.title ++ " " ++ B.summary) = true)
    (hurl : B.url ≠ A.url)
    (htitle : ¬ 92 < tsr B.title A.title) :
    dedupe tsr shv eng [A, B] =
      if absDiff (simhash_text shv B.title B.summary) (simhash_text shv A.title A.summary)
          < 2 ^ 16 then [A] else [A, B] := by
  have hA : dedupe tsr shv eng [A, B] =
      A :: dedupeGo tsr shv eng [A.url] [A.title] [simhash_text shv A.title A.summary] [B] := by
    rw [dedupe, dedupeGo_cons]
    simp [hAeng]
  rw [hA, dedupeGo_cons]
  by_cases hfp : absDiff (simhash_text shv B.title B.summary)
      (simhash_text shv A.title A.summary) < 2 ^ 16
  · rw [if_pos hfp]
    have hfp' : absDiff (simhash_text shv B.title B.summary)
        (simhash_text shv A.title A.summary) < 65536 := hfp
    simp [hurl, htitle, hfp', dedupeGo]
  · rw [if_neg hfp]
    have hfp' : ¬ absDiff (simhash_text shv B.title B.summary)
        (simhash_text shv A.title A.summary) < 65536 := hfp
    simp [hurl, htitle, hfp', hBeng, dedupeGo]

/-- C1 witness: a concrete run where the second item's fingerprint is within
`2 ^ 16` of the first's, so it is dropped. -/
theorem C1_fingerprint_rule_witness :
    dedupe tsr_zero (fun _ => 0) eng_true [itemA, itemB] = [itemA] := by
  rw [C1_fingerprint_rule tsr_zero (fun _ => 0) eng_true itemA itemB rfl rfl
    (by decide) (by decide)]
  decide

/-! ## Claim C3 -/

/-- C3: the Deduplicator is idempotent — running `dedupe` a second time on its
own output removes nothing further, for every similarity function, fingerprint
function and language filter. -/
theorem C3_dedupe_idempotent (tsr : String → String → ℚ) (shv : String → Nat)
    (eng : String → Bool) (items : List Item) :
    dedupe tsr shv eng (dedupe tsr shv eng items) = dedupe tsr shv eng items :=
  dedupeGo_idem tsr shv eng items [] [] []

/-! ## Claim C9 -/

/-- C9, counterexample: the claim says any failure while fingerprinting a
single item is caught locally, so a malformed item never causes `dedupe` to
raise and abort the batch.  But `dedupe` wraps no handler around
`simhash_text`: with a fingerprinting function failing only on `itemB`'s text,
the whole batch aborts with the error, and the healthy `itemA` is lost. -/
theorem C9_counterexample :
    dedupeE tsr_zero shf_bad (fun _ => .ok "en") [itemA, itemB] = .error () := by
  rfl

/-- C9 (amended): failures in language detection are caught locally inside
`is_english` and treated as "is English" — with a total fingerprinting
function, `dedupe` never raises, whatever the language detector does (it may
fail on every input).  Fingerprinting itself has no local handler. -/
theorem C9_language_failure_absorbed (tsr : String → String → ℚ) (g : String → Nat)
    (lang : String → Except Unit String) (items : List Item) :
    dedupeE tsr (fun s => .ok (g s)) lang items
      = .ok (dedupe tsr g (is_english lang) items) :=
  dedupeEGo_ok tsr g lang items [] [] []

/-! ## Claim C5 -/

/-- The summary of the spec's credibility scenario. -/
def scenario_summary : String := "randomised controlled trial of 1,200 patients, 15% reduction"

/-- C5, counterexample: the claim says the credibility sub-score for this
summary with tier weight 0.8 equals `min(5, 5*0.8+0.5) = 5.0` (clamped).  The
formula is right, but its value is `4.5`: `5*0.8+0.5 = 4.5 < 5`, so the cap is
not reached and the score is not `5.0`. -/
theorem C5_counterexample :
    credibility "policy" [("policy", 4 / 5)] (has_data_terms scenario_summary) = 9 / 2
      ∧ (9 / 2 : ℚ) ≠ 5 := by
  have hd : has_data_terms scenario_summary = true := by decide
  rw [hd]
  refine ⟨?_, by norm_num⟩
  norm_num [credibility, List.lookup]

/-- C5 (amended): for the scenario summary (which carries a data marker) and a
tier of configured weight 0.8, the credibility sub-score equals
`min(5, 5*0.8+0.5) = 4.5`; the cap is not exceeded, so no clamping occurs. -/
theorem C5_credibility_scenario :
    has_data_terms scenario_summary = true
      ∧ credibility "policy" [("policy", 4 / 5)] true = 9 / 2 := by
  refine ⟨by decide, ?_⟩
  norm_num [credibility, List.lookup]

/-! ## Claim C8 -/

/-- C8: the recency sub-score is `max(0, 5 - min(5, days/6))` with days
floored at 1 (any item up to one day old scores `29/6`), days taken as 999
when the date is unparseable (score 0), and an item dated exactly 30 days
before run time scores 0. -/
theorem C8_recency :
    (∀ d : ℤ, d ≤ 1 → recency_score (some d) = 29 / 6)
      ∧ (∀ d : ℤ, 30 ≤ d → recency_score (some d) = 0)
      ∧ recency_score none = 0
      ∧ recency_score (some 30) = 0 := by
  have h30 : ∀ d : ℤ, 30 ≤ d → recency_score (some d) = 0 := by
    intro d hd
    have hdays : recency_days (some d) = d := by
      simp only [recency_days]
      omega
    have h6 : (5 : ℚ) ≤ (d : ℚ) / 6 := by
      rw [le_div_iff₀ (by norm_num : (0 : ℚ) < 6)]
      have : (30 : ℚ) ≤ (d : ℚ) := by exact_mod_cast hd
      linarith
    rw [recency_score, hdays, min_eq_left h6]
    norm_num
  refine ⟨?_, h30, ?_, h30 30 le_rfl⟩
  · intro d hd
    have hdays : recency_days (some d) = 1 := by
      simp only [recency_days]
      omega
    rw [recency_score, hdays]
    norm_num
  · have hdays : recency_days none = 999 := by
      simp only [recency_days]
      omega
    rw [recency_score, hdays]
    norm_num

/-- C8 witness: a one-day-old item scores `29/6`, a 45-day-old item scores
0. -/
theorem C8_recency_witness :
    recency_score (some 1) = 29 / 6 ∧ recency_score (some 45) = 0 :=
  ⟨C8_recency.1 1 le_rfl, C8_recency.2.1 45 (by norm_num)⟩

/-! ## Claim C10 -/

/-- Every member of a rational list is bounded by the `max`-fold with base
0. -/
theorem le_foldr_max (l : List ℚ) : ∀ x ∈ l, x ≤ l.foldr max 0 := by
  induction l with
  | nil => simp
  | cons a t ih =>
    intro x hx
    rcases List.mem_cons.mp hx with rfl | hx
    · simp only [List.foldr_cons]
      exact le_max_left _ _
    · simp only [List.foldr_cons]
      exact le_trans (ih x hx) (le_max_right _ _)

/-- C10: inside `build_rows`, the prior-titles list is the titles of all items
in the batch, which contains the scored item's own title; hence, whenever the
title's token-set similarity to itself is 100, the novelty sub-score (before
any archetype nudge) is 0. -/
theorem C10_novelty_self (tsr : String → String → ℚ) (items : List Item) (it : Item)
    (hmem : it ∈ items) (hself : tsr it.title it.title = 100) :
    it.title ∈ prior_titles items ∧ novelty tsr it.title (prior_titles items) = 0 := by
  have hmemT : it.title ∈ prior_titles items := List.mem_map_of_mem _ hmem
  refine ⟨hmemT, ?_⟩
  rw [novelty]
  have hne : (prior_titles items).isEmpty = false := by
    cases h : prior_titles items with
    | nil => rw [h] at hmemT; cases hmemT
    | cons a l => rfl
  rw [if_neg (by simp [hne])]
  have hbest : (100 : ℚ) ≤ ((prior_titles items).map (fun t => tsr it.title t)).foldr max 0 := by
    have hm : tsr it.title it.title ∈ (prior_titles items).map (fun t => tsr it.title t) :=
      List.mem_map_of_mem _ hmemT
    rw [hself] at hm
    exact le_foldr_max _ _ hm
  have hnp : 5 - ((prior_titles items).map (fun t => tsr it.title t)).foldr max 0 / 100 * 5 ≤ 0 := by
    have h1 : (1 : ℚ) ≤ ((prior_titles items).map (fun t => tsr it.title t)).foldr max 0 / 100 := by
      rw [le_div_iff₀ (by norm_num : (0 : ℚ) < 100)]
      linarith
    linarith
  exact max_eq_left hnp

/-- A similarity function reporting full similarity everywhere. -/
def tsr_hundred : String → String → ℚ := fun _ _ => 100

/-- C10 witness: in a one-item batch, the item's own title is in the
prior-titles list and its novelty is 0. -/
theorem C10_novelty_self_witness :
    itemA.title ∈ prior_titles [itemA]
      ∧ novelty tsr_hundred itemA.title (prior_titles [itemA]) = 0 :=
  C10_novelty_self tsr_hundred [itemA] itemA (by decide) rfl

/-! ## Claim C7 -/

/-- C7: whatever else matches, text matching a `canary` pattern is classified
`canary` with confidence 4.5 — the canary group is tested first in the fixed
priority order, and the first matching group wins.  In particular a text
matching both a canary and an outlier pattern gets `canary`. -/
theorem C7_canary_priority (rsearch : String → List Char → Bool)
    (title summary source : String) (patterns : ArchetypePatterns)
    (hc : any_pat rsearch patterns.canary (lowerChars (title ++ ". " ++ summary)) = true)
    (ho : any_pat rsearch patterns.outlier (lowerChars (title ++ ". " ++ summary)) = true) :
    classify_archetype_rules rsearch title summary source patterns = ("canary", 9 / 2) := by
  rw [classify_archetype_rules, if_pos hc]

/-- Regex search modelled as a plain substring matcher, for the witness. -/
def rsearch_sub : String → List Char → Bool := fun p txt => hasSubList p.data txt

/-- A pattern set whose canary group matches "warn" and whose outlier group
matches "artist". -/
def pat_demo : ArchetypePatterns := ⟨["warn"], [], [], ["artist"], [], []⟩

/-- C7 witness: a text matching both the canary and the outlier group is
classified `canary` at confidence 4.5. -/
theorem C7_canary_priority_witness :
    classify_archetype_rules rsearch_sub "Warning" "artist strike" "x" pat_demo
      = ("canary", 9 / 2) :=
  C7_canary_priority rsearch_sub "Warning" "artist strike" "x" pat_demo (by decide) (by decide)

/-! ## Claim C6 -/

/-- A judge that always answers `canary` with confidence 0.6234. -/
def judge_fixed : String → String → String → Except Unit (String × ℚ) :=
  fun _ _ _ => .ok ("canary", 3117 / 5000)

/-- C6, counterexample: the claim says that when the judge's label is valid
and at or above its threshold, the judge's label and its confidence times 5
are returned.  The label is, but the returned confidence is
`round(conf*5, 2)`: for judge confidence 0.6234 the code returns 3.12, not
`0.6234*5 = 3.117`. -/
theorem C6_counterexample :
    ensemble_archetype judge_fixed "t" "s" "x" "shape_of_things" (1 / 2) (7 / 10) (3 / 5)
        = ("canary", 78 / 25)
      ∧ (78 / 25 : ℚ) ≠ (3117 / 5000) * 5 := by
  refine ⟨?_, by norm_num⟩
  have hc : classify_archetype_llm judge_fixed "t" "s" "x" = ("canary", 3117 / 5000) := by
    rw [classify_archetype_llm, judge_fixed, parse_judge]
    rw [if_pos (by decide)]
    norm_num
  rw [ensemble_archetype, if_neg (by norm_num), hc, if_pos ⟨by decide, by norm_num⟩]
  rw [round2, bround]
  norm_num

/-- C6 (amended): if the rule confidence (0-1) is at or above the rules
threshold, the ensemble returns the rule label with the rule confidence times
5 rounded to 2 decimals; otherwise, if the judge returns one of the six valid
labels at or above its threshold, the judge's label and confidence times 5
rounded to 2 decimals are returned; in every other case — judge below
threshold, invalid label / abstention, or an outright judge error — the rule
label and rounded rule confidence times 5 are returned: the judge can
override but never block classification. -/
theorem C6_ensemble_threshold_cases
    (judge : String → String → String → Except Unit (String × ℚ))
    (t s src rl : String) (rf : ℚ) :
    ((7 / 10 : ℚ) ≤ rf →
      ensemble_archetype judge t s src rl rf (7 / 10) (3 / 5) = (rl, round2 (rf * 5)))
    ∧ (rf < 7 / 10 → (classify_archetype_llm judge t s src).1 ∈ LABELS →
        (3 / 5 : ℚ) ≤ (classify_archetype_llm judge t s src).2 →
        ensemble_archetype judge t s src rl rf (7 / 10) (3 / 5)
          = ((classify_archetype_llm judge t s src).1,
             round2 ((classify_archetype_llm judge t s src).2 * 5)))
    ∧ (rf < 7 / 10 →
        ((classify_archetype_llm judge t s src).1 ∉ LABELS
          ∨ (classify_archetype_llm judge t s src).2 < 3 / 5) →
        ensemble_archetype judge t s src rl rf (7 / 10) (3 / 5) = (rl, round2 (rf * 5)))
    ∧ (rf < 7 / 10 → judge t s src = .error () →
        ensemble_archetype judge t s src rl rf (7 / 10) (3 / 5) = (rl, round2 (rf * 5))) := by
  refine ⟨?_, ?_, ?_, ?_⟩
  · intro h
    rw [ensemble_archetype, if_pos h]
  · intro h1 h2 h3
    rw [ensemble_archetype, if_neg (not_le.mpr h1), if_pos ⟨h2, h3⟩]
  · intro h1 h2
    rw [ensemble_archetype, if_neg (not_le.mpr h1), if_neg ?_]
    rintro ⟨ha, hb⟩
    rcases h2 with h | h
    · exact h ha
    · exact absurd hb (not_le.mpr h)
  · intro h1 h2
    have hc : classify_archetype_llm judge t s src = ("abstain", 0) := by
      rw [classify_archetype_llm, h2, parse_judge]
    rw [ensemble_archetype, if_neg (not_le.mpr h1), hc, if_neg ?_]
    rintro ⟨ha, _⟩
    revert ha
    decide

/-- A judge that always errors out. -/
def judge_err : String → String → String → Except Unit (String × ℚ) := fun _ _ _ => .error ()

/-- C6 witness: rule confidence 0.9 is above threshold, so the rule label is
returned with confidence `0.9*5 = 4.5` even though the judge errors. -/
theorem C6_ensemble_threshold_cases_witness :
    ensemble_archetype judge_err "t" "s" "x" "canary" (9 / 10) (7 / 10) (3 / 5)
      = ("canary", 9 / 2) := by
  rw [(C6_ensemble_threshold_cases judge_err "t" "s" "x" "canary" (9 / 10)).1 (by norm_num)]
  rw [round2, bround]
  norm_num

/-! ## Helper lemmas about the Shortlist Selector -/

/-- Unfolding of phase 1 on a cons cell. -/
theorem phase1_cons (N d : Nat) (r : Row) (rs : List Row) (out : List Row)
    (used have_arch : List String) :
    phase1 N d (r :: rs) out used have_arch =
      if N ≤ out.length then (out, used, have_arch)
      else if r.source_url ∈ used then phase1 N d rs out used have_arch
      else if have_arch.length < d ∧ r.archetype ∈ have_arch then
        phase1 N d rs out used have_arch
      else
        phase1 N d rs (out ++ [r]) (r.source_url :: used)
          (addSet r.archetype have_arch) := rfl

/-- Unfolding of phase 2 on a cons cell. -/
theorem phase2go_cons (N : Nat) (ordered : List Row) (m : String) (ms : List String)
    (out : List Row) (used missions_present : List String) :
    phase2go N ordered (m :: ms) out used missions_present =
      if N ≤ out.length then (out, used)
      else if m ∈ missions_present then phase2go N ordered ms out used missions_present
      else
        match ordered.find? (fun x => x.mission_links == m && !(used.contains x.source_url)) with
        | none => phase2go N ordered ms out used missions_present
        | some cand =>
          phase2go N ordered ms (out ++ [cand]) (cand.source_url :: used)
            (m :: missions_present) := rfl

/-- Unfolding of phase 3 on a cons cell. -/
theorem phase3_cons (N : Nat) (r : Row) (rs : List Row) (out : List Row) (used : List String) :
    phase3 N (r :: rs) out used =
      if N ≤ out.length then out
      else if r.source_url ∈ used then phase3 N rs out used
      else phase3 N rs (out ++ [r]) (r.source_url :: used) := rfl

/-- Stable insertion is a permutation of the cons. -/
theorem insertDesc_perm (r : Row) (l : List Row) : (insertDesc r l).Perm (r :: l) := by
  induction l with
  | nil => exact List.Perm.refl _
  | cons x xs ih =>
    rw [insertDesc]
    split
    · exact List.Perm.refl _
    · exact ((ih.cons x).trans (List.Perm.swap r x xs))

/-- The stable descending sort permutes its input. -/
theorem sortDesc_perm (l : List Row) : (sortDesc l).Perm l := by
  induction l with
  | nil => exact List.Perm.refl _
  | cons x xs ih => exact (insertDesc_perm x (sortDesc xs)).trans (ih.cons x)

/-- Membership in `addSet`. -/
theorem mem_addSet {a b : String} {s : List String} : a ∈ addSet b s ↔ a = b ∨ a ∈ s := by
  rw [addSet]
  split
  · constructor
    · exact fun h => Or.inr h
    · rintro (rfl | h)
      · assumption
      · exact h
  · exact List.mem_cons

/-- `addSet` preserves duplicate-freedom. -/
theorem addSet_nodup {a : String} {s : List String} (h : s.Nodup) : (addSet a s).Nodup := by
  rw [addSet]
  split
  · exact h
  · exact List.nodup_cons.mpr ⟨by assumption, h⟩

/-- `addSet` grows the set by at most one element. -/
theorem length_addSet_le (a : String) (s : List String) :
    (addSet a s).length ≤ s.length + 1 := by
  rw [addSet]
  split
  · omega
  · simp

/-- `addSet` never shrinks the set. -/
theorem le_length_addSet (a : String) (s : List String) :
    s.length ≤ (addSet a s).length := by
  rw [addSet]
  split
  · omega
  · simp

/-- Inserting a genuinely new element is a cons. -/
theorem addSet_of_not_mem {a : String} {s : List String} (h : a ∉ s) :
    addSet a s = a :: s := by
  rw [addSet, if_neg h]

/-- Phase 1 preserves the URL-uniqueness invariant: accepted URLs are pairwise
distinct and all recorded in `used`. -/
theorem phase1_urls (N d : Nat) (rs : List Row) :
    ∀ out used arch,
      ((out.map (·.source_url)).Nodup) →
      (∀ u ∈ out.map (·.source_url), u ∈ used) →
      ((phase1 N d rs out used arch).1.map (·.source_url)).Nodup
        ∧ ∀ u ∈ (phase1 N d rs out used arch).1.map (·.source_url),
            u ∈ (phase1 N d rs out used arch).2.1 := by
  induction rs with
  | nil => intro out used arch h1 h2; exact ⟨h1, h2⟩
  | cons r rs ih =>
    intro out used arch h1 h2
    rw [phase1_cons]
    by_cases hstop : N ≤ out.length
    · rw [if_pos hstop]; exact ⟨h1, h2⟩
    · rw [if_neg hstop]
      by_cases hused : r.source_url ∈ used
      · rw [if_pos hused]; exact ih out used arch h1 h2
      · rw [if_neg hused]
        by_cases hskip : arch.length < d ∧ r.archetype ∈ arch
        · rw [if_pos hskip]; exact ih out used arch h1 h2
        · rw [if_neg hskip]
          refine ih (out ++ [r]) (r.source_url :: used) (addSet r.archetype arch) ?_ ?_
          · rw [List.map_append, List.nodup_append]
            refine ⟨h1, List.nodup_singleton _, ?_⟩
            intro u hu
            simp only [List.map_cons, List.map_nil, List.mem_singleton]
            rintro rfl
            exact hused (h2 _ hu)
          · intro u hu
            rw [List.map_append] at hu
            rcases List.mem_append.mp hu with hu | hu
            · exact List.mem_cons_of_mem _ (h2 u hu)
            · simp only [List.map_cons, List.map_nil, List.mem_singleton] at hu
              subst hu
              exact List.mem_cons_self _ _

/-- Phase 2 preserves the URL-uniqueness invariant. -/
theorem phase2go_urls (N : Nat) (ordered : List Row) (ms : List String) :
    ∀ out used missions_present,
      ((out.map (·.source_url)).Nodup) →
      (∀ u ∈ out.map (·.source_url), u ∈ used) →
      ((phase2go N ordered ms out used missions_present).1.map (·.source_url)).Nodup
        ∧ ∀ u ∈ (phase2go N ordered ms out used missions_present).1.map (·.source_url),
            u ∈ (phase2go N ordered ms out used missions_present).2 := by
  induction ms with
  | nil => intro out used mp h1 h2; exact ⟨h1, h2⟩
  | cons m ms ih =>
    intro out used mp h1 h2
    rw [phase2go_cons]
    by_cases hstop : N ≤ out.length
    · rw [if_pos hstop]; exact ⟨h1, h2⟩
    · rw [if_neg hstop]
      by_cases hm : m ∈ mp
      · rw [if_pos hm]; exact ih out used mp h1 h2
      · rw [if_neg hm]
        cases hfind : ordered.find?
            (fun x => x.mission_links == m && !(used.contains x.source_url)) with
        | none => exact ih out used mp h1 h2
        | some cand =>
          have hc := List.find?_some hfind
          rw [Bool.and_eq_true] at hc
          have hcand : cand.source_url ∉ used := by
            intro hmem
            have hfalse := hc.2
            rw [Bool.not_eq_eq_eq_not, Bool.not_true] at hfalse
            have htrue : used.contains cand.source_url = true := List.elem_iff.mpr hmem
            rw [htrue] at hfalse
            cases hfalse
          refine ih (out ++ [cand]) (cand.source_url :: used) (m :: mp) ?_ ?_
          · rw [List.map_append, List.nodup_append]
            refine ⟨h1, List.nodup_singleton _, ?_⟩
            intro u hu
            simp only [List.map_cons, List.map_nil, List.mem_singleton]
            rintro rfl
            exact hcand (h2 _ hu)
          · intro u hu
            rw [List.map_append] at hu
            rcases List.mem_append.mp hu with hu | hu
            · exact List.mem_cons_of_mem _ (h2 u hu)
            · simp only [List.map_cons, List.map_nil, List.mem_singleton] at hu
              subst hu
              exact List.mem_cons_self _ _

/-- Phase 3 preserves the URL-uniqueness invariant. -/
theorem phase3_urls (N : Nat) (rs : List Row) :
    ∀ out used,
      ((out.map (·.source_url)).Nodup) →
      (∀ u ∈ out.map (·.source_url), u ∈ used) →
      ((phase3 N rs out used).map (·.source_url)).Nodup := by
  induction rs with
  | nil => intro out used h1 _; exact h1
  | cons r rs ih =>
    intro out used h1 h2
    rw [phase3_cons]
    by_cases hstop : N ≤ out.length
    · rw [if_pos hstop]; exact h1
    · rw [if_neg hstop]
      by_cases hused : r.source_url ∈ used
      · rw [if_pos hused]; exact ih out used h1 h2
      · rw [if_neg hused]
        refine ih (out ++ [r]) (r.source_url :: used) ?_ ?_
        · rw [List.map_append, List.nodup_append]
          refine ⟨h1, List.nodup_singleton _, ?_⟩
          intro u hu
          simp only [List.map_cons, List.map_nil, List.mem_singleton]
          rintro rfl
          exact hused (h2 _ hu)
        · intro u hu
          rw [List.map_append] at hu
          rcases List.mem_append.mp hu with hu | hu
          · exact List.mem_cons_of_mem _ (h2 u hu)
          · simp only [List.map_cons, List.map_nil, List.mem_singleton] at hu
            subst hu
            exact List.mem_cons_self _ _

/-- Phase 2 only appends rows to the accepted list. -/
theorem phase2go_prefix (N : Nat) (ordered : List Row) (ms : List String) :
    ∀ out used mp, ∃ extra, (phase2go N ordered ms out used mp).1 = out ++ extra := by
  induction ms with
  | nil => intro out used mp; exact ⟨[], (List.append_nil out).symm⟩
  | cons m ms ih =>
    intro out used mp
    rw [phase2go_cons]
    by_cases hstop : N ≤ out.length
    · rw [if_pos hstop]; exact ⟨[], (List.append_nil out).symm⟩
    · rw [if_neg hstop]
      by_cases hm : m ∈ mp
      · rw [if_pos hm]; exact ih out used mp
      · rw [if_neg hm]
        cases hfind : ordered.find?
            (fun x => x.mission_links == m && !(used.contains x.source_url)) with
        | none => exact ih out used mp
        | some cand =>
          obtain ⟨extra, he⟩ := ih (out ++ [cand]) (cand.source_url :: used) (m :: mp)
          exact ⟨[cand] ++ extra, by rw [he, List.append_assoc]⟩

/-- Phase 3 only appends rows to the accepted list. -/
theorem phase3_prefix (N : Nat) (rs : List Row) :
    ∀ out used, ∃ extra, phase3 N rs out used = out ++ extra := by
  induction rs with
  | nil => intro out used; exact ⟨[], (List.append_nil out).symm⟩
  | cons r rs ih =>
    intro out used
    rw [phase3_cons]
    by_cases hstop : N ≤ out.length
    · rw [if_pos hstop]; exact ⟨[], (List.append_nil out).symm⟩
    · rw [if_neg hstop]
      by_cases hused : r.source_url ∈ used
      · rw [if_pos hused]; exact ih out used
      · rw [if_neg hused]
        obtain ⟨extra, he⟩ := ih (out ++ [r]) (r.source_url :: used)
        exact ⟨[r] ++ extra, by rw [he, List.append_assoc]⟩

/-- The diversity invariant of phase 1.  Starting from a state where
`have_arch` is a duplicate-free set equal to the set of archetypes of `out`,
balanced (`|out| = |have_arch|` and `out`'s archetypes duplicate-free while
below the diversity target `d`), with the first `d` accepted archetypes
duplicate-free, and the remaining rows carrying fresh, pairwise-distinct
URLs, the phase preserves all of that; moreover it only appends to `out`,
only grows `have_arch`, and — if it ends still below the target — every
remaining row's archetype has been absorbed into `have_arch`. -/
theorem phase1_spec (N d : Nat) (hdN : d ≤ N) (rs : List Row) :
    ∀ out used arch,
      arch.Nodup →
      (∀ a, a ∈ arch ↔ a ∈ out.map (·.archetype)) →
      (arch.length < d → out.length = arch.length ∧ (out.map (·.archetype)).Nodup) →
      ((out.map (·.archetype)).take d).Nodup →
      arch.length ≤ out.length →
      (∀ r ∈ rs, r.source_url ∉ used) →
      ((rs.map (·.source_url)).Nodup) →
      (∃ extra, (phase1 N d rs out used arch).1 = out ++ extra)
      ∧ (phase1 N d rs out used arch).2.2.Nodup
      ∧ (∀ a, a ∈ (phase1 N d rs out used arch).2.2
            ↔ a ∈ (phase1 N d rs out used arch).1.map (·.archetype))
      ∧ (∀ a ∈ arch, a ∈ (phase1 N d rs out used arch).2.2)
      ∧ (((phase1 N d rs out used arch).1.map (·.archetype)).take d).Nodup
      ∧ (phase1 N d rs out used arch).2.2.length ≤ (phase1 N d rs out used arch).1.length
      ∧ ((phase1 N d rs out used arch).2.2.length < d →
            ∀ r ∈ rs, r.archetype ∈ (phase1 N d rs out used arch).2.2) := by
  induction rs with
  | nil =>
    intro out used arch hnd hiff hbal htake hlen _ _
    exact ⟨⟨[], (List.append_nil out).symm⟩, hnd, hiff, fun a ha => ha, htake, hlen,
      fun _ r hr => absurd hr (List.not_mem_nil r)⟩
  | cons r rs ih =>
    intro out used arch hnd hiff hbal htake hlen hfresh hrsnd
    rw [phase1_cons]
    by_cases hstop : N ≤ out.length
    · rw [if_pos hstop]
      refine ⟨⟨[], (List.append_nil out).symm⟩, hnd, hiff, fun a ha => ha, htake, hlen, ?_⟩
      intro hlt
      have hlt' : arch.length < d := hlt
      obtain ⟨heq, _⟩ := hbal hlt'
      have hfalse : False := by omega
      exact hfalse.elim
    · rw [if_neg hstop]
      by_cases hused : r.source_url ∈ used
      · exact absurd hused (hfresh r (List.mem_cons_self _ _))
      · rw [if_neg hused]
        by_cases hskip : arch.length < d ∧ r.archetype ∈ arch
        · rw [if_pos hskip]
          obtain ⟨hpre, hnd', hiff', hmono, htake', hlen', hreach⟩ :=
            ih out used arch hnd hiff hbal htake hlen
              (fun x hx => hfresh x (List.mem_cons_of_mem _ hx))
              (List.Nodup.of_cons hrsnd)
          refine ⟨hpre, hnd', hiff', hmono, htake', hlen', ?_⟩
          intro hlt x hx
          rcases List.mem_cons.mp hx with rfl | hx
          · exact hmono _ hskip.2
          · exact hreach hlt x hx
        · rw [if_neg hskip]
          have hmapapp :
              (out ++ [r]).map (·.archetype) = out.map (·.archetype) ++ [r.archetype] := by
            rw [List.map_append]; rfl
          have hnd2 : (addSet r.archetype arch).Nodup := addSet_nodup hnd
          have hiff2 : ∀ a, a ∈ addSet r.archetype arch
              ↔ a ∈ (out ++ [r]).map (·.archetype) := by
            intro a
            rw [mem_addSet, hmapapp, List.mem_append, List.mem_singleton, hiff a, or_comm]
          have hbal2 : (addSet r.archetype arch).length < d →
              (out ++ [r]).length = (addSet r.archetype arch).length
                ∧ ((out ++ [r]).map (·.archetype)).Nodup := by
            intro hlt2
            have harchlt : arch.length < d := lt_of_le_of_lt (le_length_addSet _ _) hlt2
            have hnotmem : r.archetype ∉ arch := fun hmem => hskip ⟨harchlt, hmem⟩
            obtain ⟨hbeq, hbnd⟩ := hbal harchlt
            rw [addSet_of_not_mem hnotmem]
            constructor
            · simp [hbeq]
            · rw [hmapapp, List.nodup_append]
              refine ⟨hbnd, List.nodup_singleton _, ?_⟩
              intro a ha
              rw [List.mem_singleton]
              rintro rfl
              exact hnotmem ((hiff r.archetype).mpr ha)
          have hlen2 : (addSet r.archetype arch).length ≤ (out ++ [r]).length := by
            have := length_addSet_le r.archetype arch
            rw [List.length_append]
            simp only [List.length_singleton]
            omega
          have htake2 : (((out ++ [r]).map (·.archetype)).take d).Nodup := by
            by_cases harchlt : arch.length < d
            · have hnotmem : r.archetype ∉ arch := fun hmem => hskip ⟨harchlt, hmem⟩
              obtain ⟨hbeq, hbnd⟩ := hbal harchlt
              have hfull : ((out ++ [r]).map (·.archetype)).Nodup := by
                rw [hmapapp, List.nodup_append]
                refine ⟨hbnd, List.nodup_singleton _, ?_⟩
                intro a ha
                rw [List.mem_singleton]
                rintro rfl
                exact hnotmem ((hiff r.archetype).mpr ha)
              exact hfull.sublist (List.take_sublist _ _)
            · have hd_le : d ≤ (out.map (·.archetype)).length := by
                rw [List.length_map]
                omega
              rw [hmapapp, List.take_append_of_le_length hd_le]
              exact htake
          obtain ⟨hpre, hnd', hiff', hmono, htake', hlen', hreach⟩ :=
            ih (out ++ [r]) (r.source_url :: used) (addSet r.archetype arch)
              hnd2 hiff2 hbal2 htake2 hlen2
              (fun x hx => by
                rw [List.mem_cons]
                rintro (hx2 | hx2)
                · have hx3 : x.source_url ∈ rs.map (·.source_url) :=
                    List.mem_map_of_mem _ hx
                  have hhead : r.source_url ∉ rs.map (·.source_url) :=
                    (List.nodup_cons.mp hrsnd).1
                  rw [hx2] at hx3
                  exact hhead hx3
                · exact hfresh x (List.mem_cons_of_mem _ hx) hx2)
              (List.Nodup.of_cons hrsnd)
          obtain ⟨extra, hextra⟩ := hpre
          refine ⟨⟨[r] ++ extra, by rw [hextra, List.append_assoc]⟩, hnd', hiff',
            ?_, htake', hlen', ?_⟩
          · intro a ha
            exact hmono a (mem_addSet.mpr (Or.inr ha))
          · intro hlt x hx
            rcases List.mem_cons.mp hx with rfl | hx
            · exact hmono _ (mem_addSet.mpr (Or.inl rfl))
            · exact hreach hlt x hx

/-! ## Claim C4 -/

/-- C4: no two rows of the Deduplicator's output share a canonical URL, and no
two rows of the Shortlist Selector's output share a `source_url` — for every
input list, scored-row pool and configuration. -/
theorem C4_url_uniqueness (tsr : String → String → ℚ) (shv : String → Nat)
    (eng : String → Bool) (items : List Item) (rows : List Row) (cfg : Config) :
    ((dedupe tsr shv eng items).map (·.url)).Nodup
      ∧ ((shortlist rows cfg).map (·.source_url)).Nodup := by
  constructor
  · exact (dedupeGo_urls_nodup tsr shv eng items [] [] []).1
  · have h1 := phase1_urls cfg.daily_top_n cfg.ensure_archetype_diversity (sortDesc rows)
      [] [] [] (by simp) (by simp)
    simp only [shortlist]
    cases hm : cfg.ensure_mission_coverage with
    | true =>
      simp only [hm, if_true]
      have h2 := phase2go_urls cfg.daily_top_n (sortDesc rows) missions_list
        (phase1 cfg.daily_top_n cfg.ensure_archetype_diversity (sortDesc rows) [] [] []).1
        (phase1 cfg.daily_top_n cfg.ensure_archetype_diversity (sortDesc rows) [] [] []).2.1
        ((phase1 cfg.daily_top_n cfg.ensure_archetype_diversity
          (sortDesc rows) [] [] []).1.map (·.mission_links))
        h1.1 h1.2
      exact phase3_urls cfg.daily_top_n (sortDesc rows) _ _ h2.1 h2.2
    | false =>
      simp only [hm, Bool.false_eq_true, if_false]
      exact phase3_urls cfg.daily_top_n (sortDesc rows) _ _ h1.1 h1.2

/-! ## Claim C2 -/

/-- A scored row sharing its URL with `rowU2`. -/
def rowU1 : Row := ⟨"u", "arch1", "ASF", 2⟩

/-- A scored row sharing its URL with `rowU1` but carrying a different
archetype. -/
def rowU2 : Row := ⟨"u", "arch2", "ASF", 1⟩

/-- C2, counterexample: the claim quantifies over every pool with at least `d`
distinct archetypes.  A pool of two rows with distinct archetypes but the same
URL has 2 distinct archetypes; with diversity target 2 and N = 2, the
shortlist keeps only the first row (the second is URL-suppressed), so it
contains a single archetype, not 2. -/
theorem C2_counterexample :
    ([rowU1, rowU2].map (·.archetype)).toFinset.card = 2
      ∧ ((shortlist [rowU1, rowU2] ⟨2, 2, true⟩).map (·.archetype)).toFinset.card = 1 := by
  constructor
  · decide
  · decide

/-- C2 (amended): for every pool of scored rows with pairwise-distinct URLs
containing at least `d` distinct archetypes, and every target `N ≥ d`, the
shortlist contains at least `d` distinct archetypes, and its first `d` rows
have pairwise distinct archetypes — no archetype repeats before `d` distinct
archetypes are represented. -/
theorem C2_diversity (rows : List Row) (cfg : Config)
    (hdN : cfg.ensure_archetype_diversity ≤ cfg.daily_top_n)
    (hnodup : (rows.map (·.source_url)).Nodup)
    (hpool : cfg.ensure_archetype_diversity ≤ (rows.map (·.archetype)).toFinset.card) :
    cfg.ensure_archetype_diversity ≤ ((shortlist rows cfg).map (·.archetype)).toFinset.card
      ∧ (((shortlist rows cfg).map (·.archetype)).take cfg.ensure_archetype_diversity).Nodup
      := by
  have hperm : (sortDesc rows).Perm rows := sortDesc_perm rows
  have hordnd : ((sortDesc rows).map (·.source_url)).Nodup :=
    ((hperm.map (·.source_url)).nodup_iff).mpr hnodup
  have hordpool : cfg.ensure_archetype_diversity
      ≤ ((sortDesc rows).map (·.archetype)).toFinset.card := by
    have hfs : ((sortDesc rows).map (·.archetype)).toFinset
        = (rows.map (·.archetype)).toFinset := by
      apply Finset.ext
      intro a
      rw [List.mem_toFinset, List.mem_toFinset]
      exact (hperm.map (·.archetype)).mem_iff
    rw [hfs]
    exact hpool
  rcases hp : phase1 cfg.daily_top_n cfg.ensure_archetype_diversity (sortDesc rows) [] [] []
    with ⟨out1, used1, arch1⟩
  have hspec := phase1_spec cfg.daily_top_n cfg.ensure_archetype_diversity hdN
    (sortDesc rows) [] [] [] List.nodup_nil (by simp)
    (fun _ => ⟨rfl, List.nodup_nil⟩) (by simp) (by simp)
    (fun r _ => List.not_mem_nil _) hordnd
  rw [hp] at hspec
  dsimp only at hspec
  obtain ⟨⟨extra1, hextra1⟩, hnd1, hiff1, _, htake1, hlen1, hreach1⟩ := hspec
  have hd_arch : cfg.ensure_archetype_diversity ≤ arch1.length := by
    by_contra hlt
    push_neg at hlt
    have hall : ∀ r ∈ sortDesc rows, r.archetype ∈ arch1 := hreach1 hlt
    have hsub : ((sortDesc rows).map (·.archetype)).toFinset ⊆ arch1.toFinset := by
      intro a ha
      rw [List.mem_toFinset] at ha ⊢
      obtain ⟨r, hr, rfl⟩ := List.mem_map.mp ha
      exact hall r hr
    have hcard := Finset.card_le_card hsub
    have hc1 : arch1.toFinset.card = arch1.length := List.toFinset_card_of_nodup hnd1
    omega
  have hd_out : cfg.ensure_archetype_diversity ≤ out1.length := le_trans hd_arch hlen1
  have hout_card : cfg.ensure_archetype_diversity
      ≤ (out1.map (·.archetype)).toFinset.card := by
    have hset : arch1.toFinset = (out1.map (·.archetype)).toFinset := by
      apply Finset.ext
      intro a
      rw [List.mem_toFinset, List.mem_toFinset]
      exact hiff1 a
    have hc1 : arch1.toFinset.card = arch1.length := List.toFinset_card_of_nodup hnd1
    rw [← hset]
    omega
  have hshort : ∃ tail, shortlist rows cfg = out1 ++ tail := by
    simp only [shortlist]
    rw [hp]
    cases hm : cfg.ensure_mission_coverage with
    | true =>
      simp only [hm, if_true]
      obtain ⟨e2, he2⟩ := phase2go_prefix cfg.daily_top_n (sortDesc rows) missions_list
        out1 used1 (out1.map (·.mission_links))
      obtain ⟨e3, he3⟩ := phase3_prefix cfg.daily_top_n (sortDesc rows)
        (phase2go cfg.daily_top_n (sortDesc rows) missions_list out1 used1
          (out1.map (·.mission_links))).1
        (phase2go cfg.daily_top_n (sortDesc rows) missions_list out1 used1
          (out1.map (·.mission_links))).2
      rw [he3, he2, List.append_assoc]
      exact ⟨e2 ++ e3, rfl⟩
    | false =>
      simp only [hm, Bool.false_eq_true, if_false]
      exact phase3_prefix cfg.daily_top_n (sortDesc rows) out1 used1
  obtain ⟨tail, htail⟩ := hshort
  rw [htail, List.map_append]
  constructor
  · rw [List.toFinset_append]
    exact le_trans hout_card (Finset.card_le_card Finset.subset_union_left)
  · rw [List.take_append_of_le_length (by rw [List.length_map]; exact hd_out)]
    exact htake1

/-- A two-row pool with distinct URLs and distinct archetypes. -/
def rowV1 : Row := ⟨"v1", "arch1", "ASF", 2⟩

/-- Companion to `rowV1` with a different URL and archetype. -/
def rowV2 : Row := ⟨"v2", "arch2", "ASF", 1⟩

/-- C2 witness: a pool of two distinct-URL rows with two distinct archetypes,
diversity target 2 and N = 2 yields a shortlist with at least 2 distinct
archetypes and no early repeat. -/
theorem C2_diversity_witness :
    2 ≤ ((shortlist [rowV1, rowV2] ⟨2, 2, true⟩).map (·.archetype)).toFinset.card
      ∧ (((shortlist [rowV1, rowV2] ⟨2, 2, true⟩).map (·.archetype)).take 2).Nodup :=
  C2_diversity [rowV1, rowV2] ⟨2, 2, true⟩ (by decide) (by decide) (by decide)

end SignalScout
